import Mathlib

/-!
Verification development for `chromium/scripts/generate_gn.py`: the
disjoint-decomposition engine (`CreatePairwiseDisjointSets`), the condition
reduction engine (`ReduceConditionalLogic` with `GetAllMatchingConditions`,
`GetAttributeValuesRange`, `GenerateConditionExpansion`) and the transitive
include resolver (`GetIncludedSources`).

Modelling choices (shallow embedding):
* The string values of `SUPPORT_MATRIX` and the wildcard marker `'*'` are
  modelled as enumerated types (`ArchV`, `TargetV`, `PlatformV`, each with a
  `star` constructor).  The program only ever builds conditions from matrix
  values and `'*'`.
* Python sets become `Finset`; the working list of `CreatePairwiseDisjointSets`
  stays a `List` because the algorithm manipulates indices
  (`list.index`, `del`, assignment), whose first-occurrence semantics are kept
  via `List.erase` / `List.replace`.
* The unbounded `while` loops run on an explicit fuel that is proved
  sufficient (the fuel is derived from a strictly decreasing measure), so all
  definitions compute by kernel reduction.
-/

set_option maxRecDepth 100000
set_option maxHeartbeats 2000000

namespace GenerateGn

/-- Values of the `ARCHITECTURE` attribute of `SUPPORT_MATRIX`, plus the
wildcard marker `'*'` (`star`). -/
inductive ArchV where
  | ia32 | x64 | arm | arm64 | armNeon | mipsel | mips64el | star
deriving DecidableEq, Fintype

/-- Values of the `TARGET` attribute of `SUPPORT_MATRIX`, plus `'*'`. -/
inductive TargetV where
  | chromium | chrome | chromiumOS | chromeOS | star
deriving DecidableEq, Fintype

/-- Values of the `PLATFORM` attribute of `SUPPORT_MATRIX`, plus `'*'`. -/
inductive PlatformV where
  | android | linux | win | mac | star
deriving DecidableEq, Fintype

/-- `SourceListCondition`: the namedtuple `(ARCHITECTURE, TARGET, PLATFORM)`. -/
structure SourceListCondition where
  architecture : ArchV
  target : TargetV
  platform : PlatformV
deriving DecidableEq, Fintype

abbrev SLC := SourceListCondition

/-- `SUPPORT_MATRIX[Attr.ARCHITECTURE]`. -/
def SUPPORT_MATRIX_arch : Finset ArchV :=
  {.ia32, .x64, .arm, .arm64, .armNeon, .mipsel, .mips64el}

/-- `SUPPORT_MATRIX[Attr.TARGET]`. -/
def SUPPORT_MATRIX_target : Finset TargetV :=
  {.chromium, .chrome, .chromiumOS, .chromeOS}

/-- `SUPPORT_MATRIX[Attr.PLATFORM]`. -/
def SUPPORT_MATRIX_platform : Finset PlatformV :=
  {.android, .linux, .win, .mac}

/-- `GetAttributeValuesRange(Attr.ARCHITECTURE, condition)`: base values
(wildcard expands to the support matrix), then filtered against the
condition's platform (`win` keeps `{ia32, x64}`, `mac` keeps `{x64}`). -/
def GetAttributeValuesRange_arch (c : SLC) : Finset ArchV :=
  let values := if c.architecture = .star then SUPPORT_MATRIX_arch
                else {c.architecture}
  let values := if c.platform = .win then values ∩ {.ia32, .x64} else values
  if c.platform = .mac then values ∩ {.x64} else values

/-- `GetAttributeValuesRange(Attr.TARGET, condition)`: base values, then
`ChromiumOS`/`ChromeOS` removed whenever the platform is neither `'*'` nor
`linux`. -/
def GetAttributeValuesRange_target (c : SLC) : Finset TargetV :=
  let values := if c.target = .star then SUPPORT_MATRIX_target else {c.target}
  if c.platform ≠ .star ∧ c.platform ≠ .linux then
    values \ {.chromiumOS, .chromeOS}
  else values

/-- `GetAttributeValuesRange(Attr.PLATFORM, condition)`: no platform filter
applies to the platform attribute itself. -/
def GetAttributeValuesRange_platform (c : SLC) : Finset PlatformV :=
  if c.platform = .star then SUPPORT_MATRIX_platform else {c.platform}

/-- `GenerateConditionExpansion(condition)`: the cartesian product of the
three attribute ranges, as a set of conditions. -/
def GenerateConditionExpansion (c : SLC) : Finset SLC :=
  ((GetAttributeValuesRange_arch c ×ˢ GetAttributeValuesRange_target c) ×ˢ
      GetAttributeValuesRange_platform c).image
    (fun x => ⟨x.1.1, x.1.2, x.2⟩)

/-- `GetAllMatchingConditions(conditions, condition_to_match)`: the conditions
agreeing with `ctm` on every attribute that is not wildcarded in `ctm`.  (The
Python early return for an all-wildcard `ctm` coincides with the filter with a
vacuous predicate.) -/
def GetAllMatchingConditions (conditions : Finset SLC) (ctm : SLC) :
    Finset SLC :=
  conditions.filter (fun c =>
    (ctm.architecture = .star ∨ c.architecture = ctm.architecture) ∧
    (ctm.target = .star ∨ c.target = ctm.target) ∧
    (ctm.platform = .star ∨ c.platform = ctm.platform))

/-- `SourceSet`: a set of source files plus the set of
`SourceListCondition`s under which they are built. -/
structure SourceSet where
  sources : Finset String
  conditions : Finset SLC
deriving DecidableEq

namespace SourceSet

/-- `SourceSet.Intersect`: common sources, union of conditions. -/
def Intersect (a b : SourceSet) : SourceSet :=
  ⟨a.sources ∩ b.sources, a.conditions ∪ b.conditions⟩

/-- `SourceSet.Difference`: sources of `a` not in `b`, intersection of the
conditions. -/
def Difference (a b : SourceSet) : SourceSet :=
  ⟨a.sources \ b.sources, a.conditions ∩ b.conditions⟩

/-- `SourceSet.IsEmpty`: no sources or no conditions. -/
def isEmpty (s : SourceSet) : Bool :=
  s.sources.card = 0 || s.conditions.card = 0

end SourceSet

/-- Scan of `itertools.combinations(l, 2)` restricted to a fixed first
component: first `b` in `rest` whose intersection with `a` is non-empty. -/
def firstPairAux (a : SourceSet) : List SourceSet →
    Option (SourceSet × SourceSet)
  | [] => none
  | b :: rest =>
    if ¬(a.Intersect b).isEmpty then some (a, b) else firstPairAux a rest

/-- The first pair (in `itertools.combinations` order) of the working list
whose intersection is non-empty, i.e. the pair the `for` loop of
`CreatePairwiseDisjointSets` splits before `break`ing. -/
def firstPair : List SourceSet → Option (SourceSet × SourceSet)
  | [] => none
  | a :: rest =>
    match firstPairAux a rest with
    | some p => some p
    | none => firstPair rest

/-- One `for p in pair` body of `CreatePairwiseDisjointSets`:
`i = disjoint_sets.index(p)` followed by `del disjoint_sets[i]` when the
difference is empty, else `disjoint_sets[i] = difference`.  `List.erase` and
`List.replace` have exactly the first-occurrence semantics of `list.index`. -/
def pyUpdate (l : List SourceSet) (p inter : SourceSet) : List SourceSet :=
  let difference := p.Difference inter
  if difference.isEmpty then l.erase p else l.replace p difference

/-- One iteration of the `while new_sets` loop: find the first non-disjoint
pair, append the intersection and update both members; `none` when the scan
finds no pair (the loop exits). -/
def step (l : List SourceSet) : Option (List SourceSet) :=
  match firstPair l with
  | none => none
  | some (a, b) =>
    let intersection := a.Intersect b
    some (pyUpdate (pyUpdate (l ++ [intersection]) a intersection)
      b intersection)

/-- Overlap count between the source sets of two `SourceSet`s; the summand of
the termination measure. -/
def f2 (a b : SourceSet) : ℕ := (a.sources ∩ b.sources).card

/-- Termination measure for the fixpoint loop: the full double sum
`Σ_{a∈m} Σ_{b∈m} |a.sources ∩ b.sources|` over the working collection. -/
def dsum (m : Multiset SourceSet) : ℕ :=
  (m.map (fun a => (m.map (f2 a)).sum)).sum

/-- One column of the double sum: `Σ_{b∈m} |a.sources ∩ b.sources|`. -/
def crossOne (m : Multiset SourceSet) (a : SourceSet) : ℕ :=
  (m.map (f2 a)).sum

/-- `d ::ₘ m` unless `d` is an empty SourceSet (the `del`-vs-assign branch of
the loop body, seen at the multiset level). -/
def addIfNonempty (d : SourceSet) (m : Multiset SourceSet) :
    Multiset SourceSet :=
  if d.isEmpty then m else d ::ₘ m

/-- The `while new_sets` loop with explicit fuel.  `dsum` strictly decreases
at each `step`, so fuel `dsum l + 1` is sufficient (`go_fixpoint`). -/
def go : ℕ → List SourceSet → List SourceSet
  | 0, l => l
  | n + 1, l =>
    match step l with
    | none => l
    | some l' => go n l'

/-- `CreatePairwiseDisjointSets(sets)`. -/
def CreatePairwiseDisjointSets (sets : List SourceSet) : List SourceSet :=
  go (dsum ↑sets + 1) sets

/-! ### Condition reduction engine -/

/-- All architecture values, in a fixed order. -/
def allArch : List ArchV :=
  [.ia32, .x64, .arm, .arm64, .armNeon, .mipsel, .mips64el, .star]

/-- All target values, in a fixed order. -/
def allTarget : List TargetV :=
  [.chromium, .chrome, .chromiumOS, .chromeOS, .star]

/-- All platform values, in a fixed order. -/
def allPlatform : List PlatformV := [.android, .linux, .win, .mac, .star]

/-- All conditions, in a fixed order. -/
def allConds : List SLC :=
  allArch.flatMap (fun a => allTarget.flatMap (fun t =>
    allPlatform.map (fun p => ⟨a, t, p⟩)))

/-- The condition set as a list in a canonical order; models
`for condition in source_set.conditions` (the Python `set` iteration order is
unspecified; the algorithm is modelled with this fixed order). -/
def conditionsList (conditions : Finset SLC) : List SLC :=
  allConds.filter (fun c => decide (c ∈ conditions))

/-- The namedtuple `ConditionReduction(condition, matches)`. -/
abbrev ConditionReduction := SLC × Finset SLC

/-- One inner-loop body of `ReduceConditionalLogic`: set one attribute of the
working dict `d` to the wildcard, giving `d'`, and test
`matches == GenerateConditionExpansion(new_condition)`.  On success the dict
keeps the wildcard and the candidate `(d', matches)` is recorded; on failure
the original value is restored (the dict stays `d`). -/
def tryWildcard (conditions : Finset SLC) (d d' : SLC) :
    SLC × Option ConditionReduction :=
  let ms := GetAllMatchingConditions conditions d'
  if ms = GenerateConditionExpansion d' then (d', some (d', ms))
  else (d, none)

/-- The candidates produced from one condition `c`, threading the mutated
dict through the attributes in `Attr` order
(`ARCHITECTURE`, `TARGET`, `PLATFORM`). -/
def candidatesFrom (conditions : Finset SLC) (c : SLC) :
    List ConditionReduction :=
  let s1 := tryWildcard conditions c {c with architecture := .star}
  let s2 := tryWildcard conditions s1.1 {s1.1 with target := .star}
  let s3 := tryWildcard conditions s2.1 {s2.1 with platform := .star}
  [s1.2, s2.2, s3.2].filterMap id

/-- Set-style insertion (the Python `reduced_conditions` is a `set`). -/
def addUnique (acc : List ConditionReduction) (x : ConditionReduction) :
    List ConditionReduction :=
  if x ∈ acc then acc else acc ++ [x]

/-- `reduced_conditions` after the candidate-generation loops: every valid
reduction candidate of every condition, deduplicated, in generation order. -/
def candidates (conditions : Finset SLC) : List ConditionReduction :=
  (conditionsList conditions).foldl
    (fun acc c => (candidatesFrom conditions c).foldl addUnique acc) []

/-- Scan of `itertools.combinations(reduced_conditions, 2)` with fixed first
component: the first candidate removed by the subsumption test
(`pair[0].matches ⊆ pair[1].matches` removes `pair[0]`, else the converse
removes `pair[1]`). -/
def findSubsumedAux (x : ConditionReduction) : List ConditionReduction →
    Option ConditionReduction
  | [] => none
  | y :: rest =>
    if x.2 ⊆ y.2 then some x
    else if y.2 ⊆ x.2 then some y
    else findSubsumedAux x rest

/-- The candidate removed by the first applicable subsumption, scanning pairs
in order; `none` when `did_work` stays false. -/
def findSubsumed : List ConditionReduction → Option ConditionReduction
  | [] => none
  | x :: rest =>
    match findSubsumedAux x rest with
    | some r => some r
    | none => findSubsumed rest

/-- The `while did_work` subsumption loop with fuel; each round removes one
candidate, so fuel `l.length` is sufficient. -/
def subsumeGo : ℕ → List ConditionReduction → List ConditionReduction
  | 0, l => l
  | n + 1, l =>
    match findSubsumed l with
    | none => l
    | some x => subsumeGo n (l.erase x)

/-- The surviving reduction candidates after pairwise subsumption. -/
def subsume (l : List ConditionReduction) : List ConditionReduction :=
  subsumeGo l.length l

/-- `for reduction in reduced_conditions: conditions.difference_update(
reduction.matches); conditions.add(reduction.condition)`. -/
def applyReductions (conditions : Finset SLC)
    (rs : List ConditionReduction) : Finset SLC :=
  rs.foldl (fun acc r => insert r.1 (acc \ r.2)) conditions

/-- `ReduceConditionalLogic(source_set)`: the same source set with its
condition collection rewritten by the surviving reduction candidates. -/
def ReduceConditionalLogic (s : SourceSet) : SourceSet :=
  ⟨s.sources, applyReductions s.conditions (subsume (candidates s.conditions))⟩

/-! ### Transitive include resolver -/

/-- A file path, modelled as an absolute/relative flag plus segments (the
program only joins and takes dirnames of paths without `.`/`..` segments, so
`os.path.abspath` on an already-joined absolute path is the identity). -/
structure Path where
  absFlag : Bool
  segs : List String
deriving DecidableEq

/-- `os.path.join(a, b)`: `b` if `b` is absolute, else the concatenation. -/
def joinPath (a b : Path) : Path :=
  if b.absFlag then b else ⟨a.absFlag, a.segs ++ b.segs⟩

/-- `os.path.dirname`. -/
def dirname (p : Path) : Path := ⟨p.absFlag, p.segs.dropLast⟩

/-- `os.path.abspath(os.path.join(source_dir, file_path))` for a relative
`file_path` under an absolute `source_dir`; an absolute `file_path` is kept
as is (the `os.path.isabs` branch). -/
def absolutize (source_dir file_path : Path) : Path :=
  if file_path.absFlag then file_path
  else ⟨true, source_dir.segs ++ file_path.segs⟩

/-- One line of a scanned file, classified the way the resolver's regexes
classify it: a quoted `#include "ref"` (`INCLUDE_REGEX`), an exotic include
(`EXOTIC_INCLUDE_REGEX`, warning only), or anything else. -/
inductive SrcLine where
  | inc (ref : Path)
  | exotic
  | plain
deriving DecidableEq

/-- The scanned file tree: an association list from absolute paths to file
contents. -/
structure Filesys where
  entries : List (Path × List SrcLine)
deriving DecidableEq

/-- Contents of a file, `none` when the path does not exist. -/
def lookupFs (fs : Filesys) (p : Path) : Option (List SrcLine) :=
  (fs.entries.find? (fun e => decide (e.1 = p))).map (·.2)

/-- `os.path.isfile`. -/
def isfile (fs : Filesys) (p : Path) : Bool := (lookupFs fs p).isSome

/-- The set of existing paths, used only to bound the recursion fuel. -/
def Filesys.dom (fs : Filesys) : Finset Path :=
  (fs.entries.map (·.1)).toFinset

/-- `IGNORED_INCLUDE_FILES`: include references exempt from resolution. -/
def IGNORED_INCLUDE_FILES : List Path :=
  [⟨false, ["config.h"]⟩,
   ⟨false, ["libavutil", "avconfig.h"]⟩,
   ⟨false, ["libavutil", "ffversion.h"]⟩,
   ⟨false, ["libavcodec", "aacps_tables.h"]⟩,
   ⟨false, ["libavcodec", "aacps_fixed_tables.h"]⟩,
   ⟨false, ["libavcodec", "aacsbr_tables.h"]⟩,
   ⟨false, ["libavcodec", "aac_tables.h"]⟩,
   ⟨false, ["libavcodec", "cabac_tables.h"]⟩,
   ⟨false, ["libavcodec", "cbrt_tables.h"]⟩,
   ⟨false, ["libavcodec", "cbrt_fixed_tables.h"]⟩,
   ⟨false, ["libavcodec", "mpegaudio_tables.h"]⟩,
   ⟨false, ["libavcodec", "pcm_tables.h"]⟩,
   ⟨false, ["libavcodec", "sinewin_tables.h"]⟩,
   ⟨false, ["libavcodec", "sinewin_fixed_tables.h"]⟩]

/-- Outcome of resolving one quoted include reference. -/
inductive ResolveOutcome where
  | found (p : Path)
  | skipped
  | fatal
deriving DecidableEq

/-- Resolution of one `#include "ref"` from a file in `current_dir`: the
including file's directory first, then `source_dir`; an unresolved reference
is skipped when allow-listed in `IGNORED_INCLUDE_FILES` and fatal
(`exit('Failed to find file ...')`) otherwise. -/
def resolveInclude (fs : Filesys) (source_dir current_dir ref : Path) :
    ResolveOutcome :=
  let inCurrent := joinPath current_dir ref
  if isfile fs inCurrent then .found inCurrent
  else
    let inSource := joinPath source_dir ref
    if isfile fs inSource then .found inSource
    else if ref ∈ IGNORED_INCLUDE_FILES then .skipped
    else .fatal

/-- Errors of the resolver: a fatal unresolved include (`exit`), a missing
file handed to `open` (`IOError`), and fuel exhaustion — a modelling device
only, proved unreachable in `getInc_no_fuelErr`. -/
inductive IncludeErr where
  | unresolved (ref : Path)
  | io (p : Path)
  | fuel
deriving DecidableEq

/-- Processing of one scanned line inside `GetIncludedSources`: non-include
lines (plain or exotic) are skipped, a resolved include recurses via `recFn`,
an allow-listed unresolved include is skipped, any other unresolved include
is fatal. -/
def processLine (recFn : Path → Finset Path → Except IncludeErr (Finset Path))
    (fs : Filesys) (source_dir current_dir : Path) (acc : Finset Path) :
    SrcLine → Except IncludeErr (Finset Path)
  | .plain => .ok acc
  | .exotic => .ok acc
  | .inc ref =>
    match resolveInclude fs source_dir current_dir ref with
    | .found p => recFn p acc
    | .skipped => .ok acc
    | .fatal => .error (.unresolved ref)

/-- `GetIncludedSources(file_path, source_dir, include_set)` with explicit
recursion fuel: absolutize the seed, bail out if already visited, otherwise
record it and fold the per-line processing over the file's contents. -/
def getInc (fs : Filesys) (source_dir : Path) :
    ℕ → Path → Finset Path → Except IncludeErr (Finset Path)
  | 0, _, _ => .error .fuel
  | n + 1, file_path, include_set =>
    let fp := absolutize source_dir file_path
    if fp ∈ include_set then .ok include_set
    else
      match lookupFs fs fp with
      | none => .error (.io fp)
      | some lines =>
        lines.foldlM (processLine (getInc fs source_dir n) fs source_dir
          (dirname fp)) (insert fp include_set)

/-- `GetIncludedSources`, at the sufficient fuel `|dom \ include_set| + 1`
(each recursion level past the visited check adds one unvisited existing
file, so the recursion depth is bounded). -/
def GetIncludedSources (fs : Filesys) (file_path source_dir : Path)
    (include_set : Finset Path) : Except IncludeErr (Finset Path) :=
  getInc fs source_dir ((fs.dom \ include_set).card + 1) file_path include_set

instance {ε α : Type} [DecidableEq ε] [DecidableEq α] :
    DecidableEq (Except ε α) := fun a b =>
  match a, b with
  | .ok x, .ok y =>
    if h : x = y then .isTrue (by rw [h]) else .isFalse (by simp [h])
  | .error x, .error y =>
    if h : x = y then .isTrue (by rw [h]) else .isFalse (by simp [h])
  | .ok _, .error _ => .isFalse (by simp)
  | .error _, .ok _ => .isFalse (by simp)

/-- Whether a resolver result is the fuel-exhaustion marker. -/
def isFuelErr : Except IncludeErr (Finset Path) → Bool
  | .error .fuel => true
  | _ => false

/-! ### Derived notions used by the statements -/

/-- A condition with at least one wildcarded attribute. -/
def hasWildcard (c : SLC) : Prop :=
  c.architecture = .star ∨ c.target = .star ∨ c.platform = .star

instance (c : SLC) : Decidable (hasWildcard c) := by
  unfold hasWildcard; infer_instance

/-- `g` agrees with `c` on every attribute that is not wildcarded in `g`
(the matching predicate of `GetAllMatchingConditions`). -/
def agreesOnConcrete (g c : SLC) : Prop :=
  (g.architecture = .star ∨ g.architecture = c.architecture) ∧
  (g.target = .star ∨ g.target = c.target) ∧
  (g.platform = .star ∨ g.platform = c.platform)

instance (g c : SLC) : Decidable (agreesOnConcrete g c) := by
  unfold agreesOnConcrete; infer_instance

/-- The set of all conditions attached to input source sets containing the
file `f` — with one concrete condition per input, exactly "the input concrete
Conditions whose SourceSet contained `f`". -/
def inputConditionsOn (inputs : List SourceSet) (f : String) : Finset SLC :=
  inputs.foldr
    (fun s acc => if f ∈ s.sources then s.conditions ∪ acc else acc) ∅

/-- Union of the source files of a collection of SourceSets. -/
def filesUnion (m : Multiset SourceSet) : Finset String :=
  (m.map SourceSet.sources).sup

/-- Every member of the working collection has a non-empty condition
collection (holds of the decomposition engine's contractual inputs — one
concrete condition each — and is preserved by every split). -/
def condNonempty (l : List SourceSet) : Prop :=
  ∀ s ∈ l, s.conditions ≠ ∅

/-- Conditions of a working SourceSet never exceed the input conditions
selecting each of its files. -/
def condsBounded (inputs l : List SourceSet) : Prop :=
  ∀ S ∈ l, ∀ f ∈ S.sources, S.conditions ⊆ inputConditionsOn inputs f

/-- Every (file, input condition) selection is still represented somewhere
in the working collection. -/
def condsCovered (inputs l : List SourceSet) : Prop :=
  ∀ (f : String) (c : SLC), c ∈ inputConditionsOn inputs f →
    ∃ S ∈ l, f ∈ S.sources ∧ c ∈ S.conditions

/-! ### Concrete inputs used by witnesses and counterexamples -/

/-- Example 1 of the spec: `A = ({x.c, y.c}, {(x64, BrandA, linux)})`. -/
def exInputA : SourceSet := ⟨{"x.c", "y.c"}, {⟨.x64, .chromium, .linux⟩}⟩

/-- Example 1 of the spec: `B = ({y.c, z.c}, {(x64, BrandB, linux)})`. -/
def exInputB : SourceSet := ⟨{"y.c", "z.c"}, {⟨.x64, .chrome, .linux⟩}⟩

/-- An input list outside the decomposition engine's contract: its first
member has an empty condition collection. -/
def badInputs : List SourceSet :=
  [⟨{"f.c", "g.c"}, ∅⟩, ⟨{"f.c"}, {⟨.x64, .chromium, .linux⟩}⟩]

/-- Every condition with architecture `x64`: the target and platform
attributes both span their full support matrices. -/
def c3conds : Finset SLC :=
  (SUPPORT_MATRIX_target ×ˢ SUPPORT_MATRIX_platform).image
    (fun x => ⟨.x64, x.1, x.2⟩)

/-- A condition set on which one reduction pass unblocks another:
`(x64, Chromium, mac)` plus `(arm, Chromium, p)` for every platform `p`. -/
def c8conds : Finset SLC :=
  {⟨.x64, .chromium, .mac⟩, ⟨.arm, .chromium, .mac⟩,
   ⟨.arm, .chromium, .android⟩, ⟨.arm, .chromium, .linux⟩,
   ⟨.arm, .chromium, .win⟩}

/-- Example 2 of the spec: every legal architecture at
`(Chromium, linux)`. -/
def c2conds : Finset SLC :=
  SUPPORT_MATRIX_arch.image (fun a => ⟨a, .chromium, .linux⟩)

/-- A source set admitting no reduction candidate. -/
def singleCondSet : SourceSet := ⟨{"x.c"}, {⟨.x64, .chromium, .linux⟩}⟩

/-- Absolute source directory of the resolver examples. -/
def exSourceDir : Path := ⟨true, ["src"]⟩

/-- Absolute path of the seed `a.c` of Example 3. -/
def exPathA : Path := ⟨true, ["src", "a.c"]⟩

/-- Absolute path of the header `b.h` of Example 3. -/
def exPathB : Path := ⟨true, ["src", "b.h"]⟩

/-- Example 3 of the spec: `a.c` includes `b.h` and `b.h` includes `a.c`. -/
def cycleFs : Filesys :=
  ⟨[(exPathA, [.inc ⟨false, ["b.h"]⟩]), (exPathB, [.inc ⟨false, ["a.c"]⟩])]⟩

/-! ### Lemmas on the condition space -/

theorem mem_GenerateConditionExpansion {c e : SLC} :
    e ∈ GenerateConditionExpansion c ↔
      e.architecture ∈ GetAttributeValuesRange_arch c ∧
      e.target ∈ GetAttributeValuesRange_target c ∧
      e.platform ∈ GetAttributeValuesRange_platform c := by
  constructor
  · intro h
    simp only [GenerateConditionExpansion, Finset.mem_image] at h
    obtain ⟨x, hx, rfl⟩ := h
    simp only [Finset.mem_product] at hx
    exact ⟨hx.1.1, hx.1.2, hx.2⟩
  · rintro ⟨h1, h2, h3⟩
    simp only [GenerateConditionExpansion, Finset.mem_image]
    exact ⟨((e.architecture, e.target), e.platform),
      Finset.mem_product.mpr ⟨Finset.mem_product.mpr ⟨h1, h2⟩, h3⟩, rfl⟩

theorem arch_range_noStar :
    ∀ (c : SLC) (a : ArchV), a ∈ GetAttributeValuesRange_arch c →
      a ≠ .star := by decide

theorem target_range_noStar :
    ∀ (c : SLC) (t : TargetV), t ∈ GetAttributeValuesRange_target c →
      t ≠ .star := by decide

theorem platform_range_noStar :
    ∀ (c : SLC) (p : PlatformV), p ∈ GetAttributeValuesRange_platform c →
      p ≠ .star := by decide

/-- Every member of an expansion is a fully concrete condition. -/
theorem expansion_noStar {c e : SLC} (h : e ∈ GenerateConditionExpansion c) :
    ¬hasWildcard e := by
  obtain ⟨h1, h2, h3⟩ := mem_GenerateConditionExpansion.mp h
  rintro (hs | hs | hs)
  · exact arch_range_noStar c _ h1 hs
  · exact target_range_noStar c _ h2 hs
  · exact platform_range_noStar c _ h3 hs

theorem platform_range_of_concrete {c : SLC} (h : c.platform ≠ .star) :
    GetAttributeValuesRange_platform c = {c.platform} := by
  unfold GetAttributeValuesRange_platform
  rw [if_neg h]

theorem arch_range_win :
    ∀ (c : SLC) (a : ArchV), c.platform = .win →
      a ∈ GetAttributeValuesRange_arch c → a = .ia32 ∨ a = .x64 := by decide

theorem arch_range_mac :
    ∀ (c : SLC) (a : ArchV), c.platform = .mac →
      a ∈ GetAttributeValuesRange_arch c → a = .x64 := by decide

theorem target_range_not_linux :
    ∀ (c : SLC) (t : TargetV), c.platform ≠ .star → c.platform ≠ .linux →
      t ∈ GetAttributeValuesRange_target c →
      t ≠ .chromiumOS ∧ t ≠ .chromeOS := by decide

theorem self_mem_GetAllMatchingConditions {conds : Finset SLC} {c : SLC}
    (h : c ∈ conds) : c ∈ GetAllMatchingConditions conds c := by
  simp [GetAllMatchingConditions, Finset.mem_filter, h]

/-! ### C9: reduction never touches the source collection -/

/-- C9. `ReduceConditionalLogic` mutates only the condition collection: the
sources of the given SourceSet are identical before and after the call. -/
theorem C9_reduce_preserves_sources (s : SourceSet) :
    (ReduceConditionalLogic s).sources = s.sources := rfl

/-! ### C4: restriction rules on expansions -/

/-- C4 (counterexample). The claim fails as stated: expanding the full
wildcard condition yields the concrete condition `(arm, ChromiumOS, win)`,
whose platform is `win` but whose architecture is neither `ia32` nor `x64`
(and whose target is ChromiumOS although the platform is not `linux`): the
restriction filters are keyed on the *input* condition's platform, which is
the wildcard here, so they never fire. -/
theorem C4_counterexample :
    (⟨.arm, .chromiumOS, .win⟩ : SLC) ∈
        GenerateConditionExpansion ⟨.star, .star, .star⟩ ∧
      (⟨.arm, .chromiumOS, .win⟩ : SLC).platform = .win ∧
      (⟨.arm, .chromiumOS, .win⟩ : SLC).architecture ≠ .ia32 ∧
      (⟨.arm, .chromiumOS, .win⟩ : SLC).architecture ≠ .x64 ∧
      (⟨.arm, .chromiumOS, .win⟩ : SLC).platform ≠ .linux ∧
      (⟨.arm, .chromiumOS, .win⟩ : SLC).target = .chromiumOS := by decide

/-- C4 (amended). For every condition whose *platform attribute is concrete*
(not the wildcard), every concrete condition of its expansion satisfies the
restriction rules: platform `win` forces architecture `ia32` or `x64`,
platform `mac` forces `x64`, and a non-`linux` platform excludes the
ChromiumOS-like targets. -/
theorem C4_expansion_restrictions (c : SLC) (hc : c.platform ≠ .star) :
    ∀ e ∈ GenerateConditionExpansion c,
      (e.platform = .win → e.architecture = .ia32 ∨ e.architecture = .x64) ∧
      (e.platform = .mac → e.architecture = .x64) ∧
      (e.platform ≠ .linux → e.target ≠ .chromiumOS ∧ e.target ≠ .chromeOS) := by
  intro e he
  obtain ⟨h1, h2, h3⟩ := mem_GenerateConditionExpansion.mp he
  rw [platform_range_of_concrete hc, Finset.mem_singleton] at h3
  refine ⟨fun hw => ?_, fun hm => ?_, fun hl => ?_⟩
  · exact arch_range_win c _ (h3 ▸ hw) h1
  · exact arch_range_mac c _ (h3 ▸ hm) h1
  · exact target_range_not_linux c _ hc (h3 ▸ hl) h2

/-- C4 (witness): the amended theorem applied to the concrete condition
`(*, *, win)` and the expansion member `(ia32, Chromium, win)`. -/
theorem C4_witness :
    (⟨.ia32, .chromium, .win⟩ : SLC) ∈
        GenerateConditionExpansion ⟨.star, .star, .win⟩ ∧
      ((⟨.ia32, .chromium, .win⟩ : SLC).platform = .win →
        (⟨.ia32, .chromium, .win⟩ : SLC).architecture = .ia32 ∨
        (⟨.ia32, .chromium, .win⟩ : SLC).architecture = .x64) :=
  ⟨by decide, fun h => (C4_expansion_restrictions ⟨.star, .star, .win⟩
    (by decide) ⟨.ia32, .chromium, .win⟩ (by decide)).1 h⟩

/-! ### Lemmas on candidate generation and subsumption -/

theorem agrees_refl (c : SLC) : agreesOnConcrete c c :=
  ⟨.inr rfl, .inr rfl, .inr rfl⟩

theorem agrees_starArch {g c : SLC} (h : agreesOnConcrete g c) :
    agreesOnConcrete {g with architecture := .star} c :=
  ⟨.inl rfl, h.2.1, h.2.2⟩

theorem agrees_starTarget {g c : SLC} (h : agreesOnConcrete g c) :
    agreesOnConcrete {g with target := .star} c :=
  ⟨h.1, .inl rfl, h.2.2⟩

theorem agrees_starPlatform {g c : SLC} (h : agreesOnConcrete g c) :
    agreesOnConcrete {g with platform := .star} c :=
  ⟨h.1, h.2.1, .inl rfl⟩

theorem tryWildcard_fst (conds : Finset SLC) (d d' : SLC) :
    (tryWildcard conds d d').1 = d' ∨ (tryWildcard conds d d').1 = d := by
  simp only [tryWildcard]
  split
  · exact .inl rfl
  · exact .inr rfl

theorem tryWildcard_eq_some {conds : Finset SLC} {d d' : SLC}
    {cr : ConditionReduction} (h : (tryWildcard conds d d').2 = some cr) :
    cr.1 = d' ∧ cr.2 = GetAllMatchingConditions conds d' ∧
      cr.2 = GenerateConditionExpansion d' := by
  simp only [tryWildcard] at h
  split at h
  · rename_i heq
    simp only [Option.some.injEq] at h
    subst h
    exact ⟨rfl, rfl, heq⟩
  · simp at h

/-- Every candidate produced from the condition `c` records a coverage equal
to both its matching set and its expansion, has at least one wildcarded
attribute, and agrees with `c` on every non-wildcarded attribute. -/
theorem mem_candidatesFrom {conds : Finset SLC} {c : SLC}
    {cr : ConditionReduction} (h : cr ∈ candidatesFrom conds c) :
    cr.2 = GetAllMatchingConditions conds cr.1 ∧
      cr.2 = GenerateConditionExpansion cr.1 ∧
      hasWildcard cr.1 ∧ agreesOnConcrete cr.1 c := by
  have hag1 : agreesOnConcrete
      (tryWildcard conds c {c with architecture := .star}).1 c := by
    rcases tryWildcard_fst conds c {c with architecture := .star} with h1 | h1 <;>
      rw [h1]
    · exact agrees_starArch (agrees_refl c)
    · exact agrees_refl c
  have hag2 : agreesOnConcrete
      (tryWildcard conds (tryWildcard conds c {c with architecture := .star}).1
        {(tryWildcard conds c {c with architecture := .star}).1 with
          target := .star}).1 c := by
    rcases tryWildcard_fst conds
        (tryWildcard conds c {c with architecture := .star}).1
        {(tryWildcard conds c {c with architecture := .star}).1 with
          target := .star} with h2 | h2 <;> rw [h2]
    · exact agrees_starTarget hag1
    · exact hag1
  simp only [candidatesFrom, List.mem_filterMap, List.mem_cons,
    List.mem_singleton, List.not_mem_nil, or_false, id_eq] at h
  obtain ⟨o, ho, hoc⟩ := h
  subst hoc
  rcases ho with ho | ho | ho
  · obtain ⟨he1, he2, he3⟩ := tryWildcard_eq_some ho.symm
    rw [he1]
    exact ⟨he1 ▸ he2, he1 ▸ he3, .inl rfl, agrees_starArch (agrees_refl c)⟩
  · obtain ⟨he1, he2, he3⟩ := tryWildcard_eq_some ho.symm
    rw [he1]
    exact ⟨he1 ▸ he2, he1 ▸ he3, .inr (.inl rfl), agrees_starTarget hag1⟩
  · obtain ⟨he1, he2, he3⟩ := tryWildcard_eq_some ho.symm
    rw [he1]
    exact ⟨he1 ▸ he2, he1 ▸ he3, .inr (.inr rfl), agrees_starPlatform hag2⟩

theorem foldl_addUnique_prop {P : ConditionReduction → Prop} :
    ∀ (xs acc : List ConditionReduction), (∀ x ∈ acc, P x) →
      (∀ x ∈ xs, P x) → ∀ x ∈ xs.foldl addUnique acc, P x := by
  intro xs
  induction xs with
  | nil => exact fun acc ha _ => ha
  | cons y ys ih =>
    intro acc ha hxs x hx
    refine ih (addUnique acc y) ?_ (fun z hz => hxs z (.tail _ hz)) x hx
    intro z hz
    unfold addUnique at hz
    split at hz
    · exact ha z hz
    · rcases List.mem_append.mp hz with hz | hz
      · exact ha z hz
      · rw [List.mem_singleton.mp hz]
        exact hxs y (.head _)

theorem foldl_candidates_prop {P : ConditionReduction → Prop}
    {conds : Finset SLC}
    (hP : ∀ c ∈ conds, ∀ cr ∈ candidatesFrom conds c, P cr) :
    ∀ (cs : List SLC) (acc : List ConditionReduction),
      (∀ c ∈ cs, c ∈ conds) → (∀ x ∈ acc, P x) →
      ∀ x ∈ cs.foldl
        (fun a c => (candidatesFrom conds c).foldl addUnique a) acc, P x := by
  intro cs
  induction cs with
  | nil => exact fun acc _ ha => ha
  | cons c cs ih =>
    intro acc hcs ha x hx
    refine ih _ (fun d hd => hcs d (.tail _ hd)) ?_ x hx
    exact foldl_addUnique_prop _ _ ha (hP c (hcs c (.head _)))

/-- Every recorded reduction candidate has coverage equal to both its
matching set and its expansion, carries a wildcard, and agrees with some
condition of the set on its concrete attributes. -/
theorem mem_candidates {conds : Finset SLC} {cr : ConditionReduction}
    (h : cr ∈ candidates conds) :
    cr.2 = GetAllMatchingConditions conds cr.1 ∧
      cr.2 = GenerateConditionExpansion cr.1 ∧
      hasWildcard cr.1 ∧ ∃ c ∈ conds, agreesOnConcrete cr.1 c := by
  refine foldl_candidates_prop (P := fun cr =>
      cr.2 = GetAllMatchingConditions conds cr.1 ∧
      cr.2 = GenerateConditionExpansion cr.1 ∧
      hasWildcard cr.1 ∧ ∃ c ∈ conds, agreesOnConcrete cr.1 c)
    ?_ (conditionsList conds) [] ?_ (by simp) cr h
  · intro c hc cr' hcr'
    obtain ⟨h1, h2, h3, h4⟩ := mem_candidatesFrom hcr'
    exact ⟨h1, h2, h3, c, hc, h4⟩
  · intro c hc
    simp only [conditionsList, List.mem_filter, decide_eq_true_eq] at hc
    exact hc.2

theorem subsumeGo_subset :
    ∀ (n : ℕ) (l : List ConditionReduction) (x : ConditionReduction),
      x ∈ subsumeGo n l → x ∈ l := by
  intro n
  induction n with
  | zero => exact fun l x h => h
  | succ n ih =>
    intro l x h
    unfold subsumeGo at h
    split at h
    · exact h
    · exact List.mem_of_mem_erase (ih _ _ h)

theorem subsume_subset {l : List ConditionReduction}
    {x : ConditionReduction} (h : x ∈ subsume l) : x ∈ l :=
  subsumeGo_subset _ _ _ h

theorem findSubsumed_length {l : List ConditionReduction}
    {x : ConditionReduction} (h : findSubsumed l = some x) : 2 ≤ l.length := by
  induction l with
  | nil => simp [findSubsumed] at h
  | cons y rest ih =>
    unfold findSubsumed at h
    split at h
    · rename_i r hr
      cases rest with
      | nil => simp [findSubsumedAux] at hr
      | cons z zs => simp
    · have := ih h
      simp only [List.length_cons]
      omega

theorem subsumeGo_ne_nil :
    ∀ (n : ℕ) (l : List ConditionReduction), l ≠ [] →
      subsumeGo n l ≠ [] := by
  intro n
  induction n with
  | zero => exact fun l h => h
  | succ n ih =>
    intro l h
    unfold subsumeGo
    split
    · exact h
    · rename_i x hx
      refine ih _ ?_
      have h2 := findSubsumed_length hx
      by_cases hmem : x ∈ l
      · have := List.length_erase_of_mem hmem
        intro hnil
        rw [hnil] at this
        simp at this
        omega
      · rw [List.erase_of_not_mem hmem]
        exact h

theorem subsume_ne_nil {l : List ConditionReduction} (h : l ≠ []) :
    subsume l ≠ [] :=
  subsumeGo_ne_nil _ _ h

theorem mem_applyReductions {x : SLC} :
    ∀ (rs : List ConditionReduction) (conds : Finset SLC),
      x ∈ applyReductions conds rs →
      x ∈ conds ∨ ∃ r ∈ rs, x = r.1 := by
  intro rs
  induction rs with
  | nil => exact fun conds h => .inl h
  | cons r rs ih =>
    intro conds h
    rcases ih (insert r.1 (conds \ r.2)) h with h' | ⟨r', hr', he⟩
    · rcases Finset.mem_insert.mp h' with he | hmem
      · exact .inr ⟨r, .head _, he⟩
      · exact .inl (Finset.mem_sdiff.mp hmem).1
    · exact .inr ⟨r', .tail _ hr', he⟩

theorem mem_applyReductions_of_mem {x : SLC} (hw : hasWildcard x) :
    ∀ (rs : List ConditionReduction) (conds : Finset SLC),
      (∀ r ∈ rs, r.2 = GenerateConditionExpansion r.1) → x ∈ conds →
      x ∈ applyReductions conds rs := by
  intro rs
  induction rs with
  | nil => exact fun conds _ hx => hx
  | cons r rs ih =>
    intro conds hrs hx
    refine ih _ (fun r' hr' => hrs r' (.tail _ hr')) ?_
    refine Finset.mem_insert_of_mem (Finset.mem_sdiff.mpr ⟨hx, fun hc => ?_⟩)
    exact expansion_noStar ((hrs r (.head _)) ▸ hc) hw

/-! ### C2: soundness of applied reductions -/

/-- C2. Every reduction surviving the subsumption pass (these are exactly the
reductions `ReduceConditionalLogic` applies) records a coverage that is
*equal* to the expansion of its generalized condition — the reduction neither
over- nor under-generalizes. -/
theorem C2_reduction_soundness (s : SourceSet) (cr : ConditionReduction)
    (h : cr ∈ subsume (candidates s.conditions)) :
    cr.2 = GenerateConditionExpansion cr.1 ∧
      (ReduceConditionalLogic s).conditions =
        applyReductions s.conditions (subsume (candidates s.conditions)) :=
  ⟨(mem_candidates (subsume_subset h)).2.1, rfl⟩

/-- C2 (witness): on Example 2 of the spec — every architecture at
`(Chromium, linux)` — the surviving reduction is
`((*, Chromium, linux), c2conds)` and its coverage is the expansion. -/
theorem C2_witness :
    c2conds = GenerateConditionExpansion ⟨.star, .chromium, .linux⟩ ∧
      (ReduceConditionalLogic ⟨{"a.c"}, c2conds⟩).conditions =
        applyReductions c2conds (subsume (candidates c2conds)) :=
  C2_reduction_soundness ⟨{"a.c"}, c2conds⟩
    (⟨.star, .chromium, .linux⟩, c2conds) (by decide)

/-! ### C3: which conditions a reduction pass can introduce -/

/-- C3 (counterexample). On the condition set `c3conds` (architecture `x64`,
all targets, all platforms) a single reduction pass introduces the condition
`(x64, *, *)`, which wildcards *two* attributes: after a successful
generalization the inner loop keeps the wildcard in its working dict, so
wildcards accumulate across attributes. -/
theorem C3_counterexample :
    (⟨.x64, .star, .star⟩ : SLC) ∈
        (ReduceConditionalLogic ⟨{"a.c"}, c3conds⟩).conditions ∧
      (⟨.x64, .star, .star⟩ : SLC) ∉ c3conds ∧
      (⟨.x64, .star, .star⟩ : SLC).target = .star ∧
      (⟨.x64, .star, .star⟩ : SLC).platform = .star := by decide

/-- C3 (amended). Every condition present after a reduction pass is either an
original condition of the SourceSet, or a generalization that wildcards *at
least one* attribute (possibly several, since successful wildcards
accumulate) and agrees with some original condition on all its
non-wildcarded attributes. -/
theorem C3_generalization_shape (s : SourceSet) (g : SLC)
    (h : g ∈ (ReduceConditionalLogic s).conditions) :
    g ∈ s.conditions ∨
      (hasWildcard g ∧ ∃ c ∈ s.conditions, agreesOnConcrete g c) := by
  rcases mem_applyReductions _ _ h with h' | ⟨r, hr, he⟩
  · exact .inl h'
  · obtain ⟨_, _, h3, h4⟩ := mem_candidates (subsume_subset hr)
    exact .inr (he ▸ ⟨h3, h4⟩)

/-- C3 (witness): the amended theorem applied to the two-wildcard condition
`(x64, *, *)` produced on `c3conds`. -/
theorem C3_witness :
    (⟨.x64, .star, .star⟩ : SLC) ∈ c3conds ∨
      (hasWildcard ⟨.x64, .star, .star⟩ ∧
        ∃ c ∈ c3conds, agreesOnConcrete ⟨.x64, .star, .star⟩ c) :=
  C3_generalization_shape ⟨{"a.c"}, c3conds⟩ ⟨.x64, .star, .star⟩ (by decide)

/-! ### C8: reduction is not idempotent -/

/-- C8 (counterexample). On `c8conds` the first reduction pass rewrites the
collection to `{(x64, Chromium, mac), (arm, Chromium, *)}`; the second pass
then finds the fresh candidate `(*, Chromium, mac)` — the `arm` condition
that blocked it is gone — and changes the collection again.  So a SourceSet
whose conditions are already the result of a reduction pass is *not* left
unchanged. -/
theorem C8_counterexample :
    (ReduceConditionalLogic
        (ReduceConditionalLogic ⟨{"a.c"}, c8conds⟩)).conditions ≠
      (ReduceConditionalLogic ⟨{"a.c"}, c8conds⟩).conditions := by decide

/-- C8 (amended). A reduction pass leaves the condition collection unchanged
precisely when it produces no reduction candidate at all; an already-reduced
collection can still produce candidates (see the counterexample), so
idempotence fails in general. -/
theorem C8_reduction_noop_iff (s : SourceSet) :
    (ReduceConditionalLogic s).conditions = s.conditions ↔
      candidates s.conditions = [] := by
  constructor
  · intro h
    by_contra hne
    obtain ⟨r, hr⟩ := List.exists_mem_of_ne_nil _ (subsume_ne_nil hne)
    obtain ⟨hc1, hc2, hc3, _⟩ := mem_candidates (subsume_subset hr)
    have hnotin : r.1 ∉ s.conditions := by
      intro hin
      have hm : r.1 ∈ r.2 := hc1 ▸ self_mem_GetAllMatchingConditions hin
      exact expansion_noStar (hc2 ▸ hm) hc3
    have hmem : r.1 ∈ (ReduceConditionalLogic s).conditions := by
      obtain ⟨L1, L2, hL⟩ := List.append_of_mem hr
      show r.1 ∈ applyReductions s.conditions
        (subsume (candidates s.conditions))
      rw [hL]
      unfold applyReductions
      rw [List.foldl_append, List.foldl_cons]
      refine mem_applyReductions_of_mem hc3 L2 _ ?_ (Finset.mem_insert_self _ _)
      intro r' hr'
      have hr'mem : r' ∈ subsume (candidates s.conditions) := by
        rw [hL]
        exact List.mem_append.mpr (.inr (.tail _ hr'))
      exact (mem_candidates (subsume_subset hr'mem)).2.1
    rw [h] at hmem
    exact hnotin hmem
  · intro h
    show applyReductions s.conditions (subsume (candidates s.conditions)) =
      s.conditions
    rw [h]
    rfl

/-- C8 (witness): on a singleton condition collection the pass produces no
candidate and is a no-op. -/
theorem C8_witness :
    (ReduceConditionalLogic singleCondSet).conditions =
      singleCondSet.conditions :=
  (C8_reduction_noop_iff singleCondSet).mpr (by decide)

/-! ### Lemmas on the include resolver -/

theorem lookupFs_some_mem_dom {fs : Filesys} {p : Path} {ls : List SrcLine}
    (h : lookupFs fs p = some ls) : p ∈ fs.dom := by
  simp only [lookupFs, Option.map_eq_some'] at h
  obtain ⟨e, he, _⟩ := h
  have hmem := List.mem_of_find?_eq_some he
  have hp := List.find?_some he
  simp only [decide_eq_true_eq] at hp
  simp only [Filesys.dom, List.mem_toFinset, List.mem_map]
  exact ⟨e, hmem, hp⟩

/-- Monotonicity of the per-line fold, given monotonicity of the recursive
calls at fuel `n`. -/
theorem foldlM_processLine_mono {fs : Filesys} {source_dir current_dir : Path}
    {n : ℕ}
    (ih : ∀ (p : Path) (a r : Finset Path),
      getInc fs source_dir n p a = .ok r → a ⊆ r) :
    ∀ (lines : List SrcLine) (acc r : Finset Path),
      lines.foldlM
        (processLine (getInc fs source_dir n) fs source_dir current_dir)
        acc = .ok r → acc ⊆ r := by
  intro lines
  induction lines with
  | nil =>
    intro acc r h
    simp only [List.foldlM_nil] at h
    cases h
    exact Finset.Subset.refl _
  | cons line rest ihl =>
    intro acc r h
    rw [List.foldlM_cons] at h
    cases line with
    | plain =>
      simp only [processLine, bind, Except.bind] at h
      exact ihl acc r h
    | exotic =>
      simp only [processLine, bind, Except.bind] at h
      exact ihl acc r h
    | inc ref =>
      simp only [processLine] at h
      cases hres : resolveInclude fs source_dir current_dir ref with
      | found p =>
        rw [hres] at h
        have h' : (getInc fs source_dir n p acc >>= fun b =>
            rest.foldlM (processLine (getInc fs source_dir n) fs source_dir
              current_dir) b) = .ok r := h
        cases hg : getInc fs source_dir n p acc with
        | error e => rw [hg] at h'; simp [bind, Except.bind] at h'
        | ok acc' =>
          rw [hg] at h'
          simp only [bind, Except.bind] at h'
          exact Finset.Subset.trans (ih p acc acc' hg) (ihl acc' r h')
      | skipped =>
        rw [hres] at h
        have h' : rest.foldlM (processLine (getInc fs source_dir n) fs
            source_dir current_dir) acc = .ok r := h
        exact ihl acc r h'
      | fatal =>
        rw [hres] at h
        have h' : (Except.error (IncludeErr.unresolved ref) :
            Except IncludeErr (Finset Path)) = .ok r := h
        cases h'

/-- A successful call only grows the visited set. -/
theorem getInc_mono {fs : Filesys} {source_dir : Path} :
    ∀ (n : ℕ) (p : Path) (s r : Finset Path),
      getInc fs source_dir n p s = .ok r → s ⊆ r := by
  intro n
  induction n with
  | zero => intro p s r h; simp [getInc] at h
  | succ n ih =>
    intro p s r h
    unfold getInc at h
    by_cases hv : absolutize source_dir p ∈ s
    · rw [if_pos hv] at h
      cases h
      exact Finset.Subset.refl _
    · rw [if_neg hv] at h
      cases hl : lookupFs fs (absolutize source_dir p) with
      | none => rw [hl] at h; simp at h
      | some lines =>
        rw [hl] at h
        exact (Finset.subset_insert _ _).trans
          (foldlM_processLine_mono ih lines _ r h)

/-- A successful call records the absolutized seed. -/
theorem getInc_seed_mem {fs : Filesys} {source_dir : Path} :
    ∀ (n : ℕ) (p : Path) (s r : Finset Path),
      getInc fs source_dir n p s = .ok r → absolutize source_dir p ∈ r := by
  intro n
  cases n with
  | zero => intro p s r h; simp [getInc] at h
  | succ n =>
    intro p s r h
    unfold getInc at h
    by_cases hv : absolutize source_dir p ∈ s
    · rw [if_pos hv] at h
      cases h
      exact hv
    · rw [if_neg hv] at h
      cases hl : lookupFs fs (absolutize source_dir p) with
      | none => rw [hl] at h; simp at h
      | some lines =>
        rw [hl] at h
        exact foldlM_processLine_mono (fun q a b => getInc_mono n q a b)
          lines _ r h (Finset.mem_insert_self _ _)

/-- Fuel adequacy of the per-line fold. -/
theorem foldlM_processLine_no_fuelErr {fs : Filesys}
    {source_dir current_dir : Path} {n : ℕ}
    (ihf : ∀ (p : Path) (a : Finset Path), (fs.dom \ a).card < n →
      isFuelErr (getInc fs source_dir n p a) = false) :
    ∀ (lines : List SrcLine) (acc : Finset Path),
      (fs.dom \ acc).card < n →
      isFuelErr (lines.foldlM
        (processLine (getInc fs source_dir n) fs source_dir current_dir)
        acc) = false := by
  intro lines
  induction lines with
  | nil => intro acc _; rfl
  | cons line rest ihl =>
    intro acc hacc
    rw [List.foldlM_cons]
    cases line with
    | plain =>
      show isFuelErr (rest.foldlM _ acc) = false
      exact ihl acc hacc
    | exotic =>
      show isFuelErr (rest.foldlM _ acc) = false
      exact ihl acc hacc
    | inc ref =>
      show isFuelErr (processLine _ fs source_dir current_dir acc (.inc ref)
        >>= fun b => rest.foldlM _ b) = false
      simp only [processLine]
      cases hres : resolveInclude fs source_dir current_dir ref with
      | found p =>
        simp only [bind, Except.bind]
        cases hg : getInc fs source_dir n p acc with
        | error e =>
          have := ihf p acc hacc
          rw [hg] at this
          exact this
        | ok acc' =>
          refine ihl acc' (lt_of_le_of_lt ?_ hacc)
          exact Finset.card_le_card
            (Finset.sdiff_subset_sdiff (Finset.Subset.refl _)
              (getInc_mono n p acc acc' hg))
      | skipped =>
        show isFuelErr (rest.foldlM _ acc) = false
        exact ihl acc hacc
      | fatal => rfl

/-- With fuel exceeding the number of unvisited existing files, the resolver
never exhausts its fuel: a visited file is never reprocessed, so each
recursion level inserts a fresh existing file. -/
theorem getInc_no_fuelErr {fs : Filesys} {source_dir : Path} :
    ∀ (n : ℕ) (p : Path) (s : Finset Path), (fs.dom \ s).card < n →
      isFuelErr (getInc fs source_dir n p s) = false := by
  intro n
  induction n with
  | zero => intro p s h; omega
  | succ n ih =>
    intro p s hcard
    unfold getInc
    by_cases hv : absolutize source_dir p ∈ s
    · rw [if_pos hv]
      rfl
    · rw [if_neg hv]
      cases hl : lookupFs fs (absolutize source_dir p) with
      | none => rfl
      | some lines =>
        refine foldlM_processLine_no_fuelErr ih lines _ ?_
        have hdom : absolutize source_dir p ∈ fs.dom \ s :=
          Finset.mem_sdiff.mpr ⟨lookupFs_some_mem_dom hl, hv⟩
        have heq : fs.dom \ insert (absolutize source_dir p) s =
            (fs.dom \ s).erase (absolutize source_dir p) := by
          ext x
          simp only [Finset.mem_sdiff, Finset.mem_insert, Finset.mem_erase]
          tauto
        have hpos : 0 < (fs.dom \ s).card :=
          Finset.card_pos.mpr ⟨_, hdom⟩
        rw [heq, Finset.card_erase_of_mem hdom]
        omega

/-! ### C6: termination of the include walk -/

/-- C6. The resolver terminates on every include graph: with its computed
fuel it never returns the fuel-exhaustion marker (a visited file is never
reprocessed, so the recursion depth is bounded by the number of unvisited
existing files), and on the two-file cycle of Example 3 — `a.c` includes
`b.h` which includes `a.c` — it terminates with exactly the closure
`{/src/a.c, /src/b.h}` of absolute paths. -/
theorem C6_terminates :
    (∀ (fs : Filesys) (file_path source_dir : Path)
      (include_set : Finset Path),
      isFuelErr (GetIncludedSources fs file_path source_dir include_set) =
        false) ∧
    GetIncludedSources cycleFs ⟨false, ["a.c"]⟩ exSourceDir ∅ =
      .ok {exPathA, exPathB} := by
  constructor
  · intro fs file_path source_dir include_set
    exact getInc_no_fuelErr _ _ _ (Nat.lt_succ_self _)
  · decide

/-! ### C7: unresolved includes are fatal iff not allow-listed -/

/-- C7. For a quoted include reference that resolves in neither the
including file's directory nor the root source directory: resolution is
fatal exactly when the reference is not in `IGNORED_INCLUDE_FILES`, and an
allow-listed unresolved reference is skipped, leaving the visited set of the
closure walk untouched. -/
theorem C7_unresolved_fatal_iff (fs : Filesys)
    (source_dir current_dir ref : Path)
    (h1 : isfile fs (joinPath current_dir ref) = false)
    (h2 : isfile fs (joinPath source_dir ref) = false) :
    (resolveInclude fs source_dir current_dir ref = .fatal ↔
      ref ∉ IGNORED_INCLUDE_FILES) ∧
    (ref ∈ IGNORED_INCLUDE_FILES →
      ∀ (recFn : Path → Finset Path → Except IncludeErr (Finset Path))
        (acc : Finset Path),
        processLine recFn fs source_dir current_dir acc (.inc ref) =
          .ok acc) := by
  have hres : resolveInclude fs source_dir current_dir ref =
      if ref ∈ IGNORED_INCLUDE_FILES then .skipped else .fatal := by
    simp [resolveInclude, h1, h2]
  constructor
  · constructor
    · intro hf hmem
      rw [hres, if_pos hmem] at hf
      cases hf
    · intro hmem
      rw [hres, if_neg hmem]
  · intro hmem recFn acc
    simp only [processLine, hres, if_pos hmem]

/-- C7 (witness): with an empty file tree, the allow-listed `config.h` is
skipped (and resolution of it is not fatal). -/
theorem C7_witness :
    ((resolveInclude ⟨[]⟩ exSourceDir exSourceDir ⟨false, ["config.h"]⟩ =
        .fatal ↔
      (⟨false, ["config.h"]⟩ : Path) ∉ IGNORED_INCLUDE_FILES) ∧
    ((⟨false, ["config.h"]⟩ : Path) ∈ IGNORED_INCLUDE_FILES →
      ∀ (recFn : Path → Finset Path → Except IncludeErr (Finset Path))
        (acc : Finset Path),
        processLine recFn ⟨[]⟩ exSourceDir exSourceDir acc
          (.inc ⟨false, ["config.h"]⟩) = .ok acc)) :=
  C7_unresolved_fatal_iff ⟨[]⟩ exSourceDir exSourceDir ⟨false, ["config.h"]⟩
    (by decide) (by decide)

/-! ### C10: the visited set only grows -/

/-- C10. A completed call of the resolver only grows the shared visited set:
every previously visited path is still present, the absolutized seed is
present, and if the absolutized seed was already visited the call returns
the set unchanged. -/
theorem C10_visited_monotone (fs : Filesys)
    (file_path source_dir : Path) (include_set r : Finset Path)
    (h : GetIncludedSources fs file_path source_dir include_set = .ok r) :
    include_set ⊆ r ∧ absolutize source_dir file_path ∈ r ∧
      (absolutize source_dir file_path ∈ include_set → r = include_set) := by
  refine ⟨getInc_mono _ _ _ _ h, getInc_seed_mem _ _ _ _ h, fun hv => ?_⟩
  unfold GetIncludedSources getInc at h
  rw [if_pos hv] at h
  cases h
  rfl

/-- C10 (witness): the monotonicity theorem applied to the cycle example. -/
theorem C10_witness :
    (∅ : Finset Path) ⊆ {exPathA, exPathB} ∧
      absolutize exSourceDir ⟨false, ["a.c"]⟩ ∈
        ({exPathA, exPathB} : Finset Path) ∧
      (absolutize exSourceDir ⟨false, ["a.c"]⟩ ∈ (∅ : Finset Path) →
        ({exPathA, exPathB} : Finset Path) = ∅) :=
  C10_visited_monotone cycleFs ⟨false, ["a.c"]⟩ exSourceDir ∅
    {exPathA, exPathB} (by decide)

/-! ### Lemmas on the decomposition engine -/

theorem firstPairAux_eq_some {a : SourceSet} :
    ∀ {rest : List SourceSet} {p : SourceSet × SourceSet},
      firstPairAux a rest = some p →
      p.1 = a ∧ p.2 ∈ rest ∧ ¬(p.1.Intersect p.2).isEmpty := by
  intro rest
  induction rest with
  | nil => intro p h; simp [firstPairAux] at h
  | cons b bs ih =>
    intro p h
    unfold firstPairAux at h
    split at h
    · rename_i hc
      cases h
      exact ⟨rfl, .head _, hc⟩
    · obtain ⟨h1, h2, h3⟩ := ih h
      exact ⟨h1, .tail _ h2, h3⟩

theorem firstPairAux_eq_none {a : SourceSet} :
    ∀ {rest : List SourceSet}, firstPairAux a rest = none →
      ∀ b ∈ rest, (a.Intersect b).isEmpty = true := by
  intro rest
  induction rest with
  | nil => intro _ b hb; cases hb
  | cons c cs ih =>
    intro h b hb
    unfold firstPairAux at h
    split at h
    · cases h
    · rename_i hc
      cases hb with
      | head => simpa using hc
      | tail _ hb => exact ih h b hb

theorem firstPair_eq_some :
    ∀ {l : List SourceSet} {p : SourceSet × SourceSet},
      firstPair l = some p →
      ∃ m : Multiset SourceSet,
        (l : Multiset SourceSet) = p.1 ::ₘ p.2 ::ₘ m ∧
        ¬(p.1.Intersect p.2).isEmpty := by
  intro l
  induction l with
  | nil => intro p h; simp [firstPair] at h
  | cons a rest ih =>
    intro p h
    unfold firstPair at h
    split at h
    · rename_i q hq
      cases h
      obtain ⟨h1, h2, h3⟩ := firstPairAux_eq_some hq
      obtain ⟨m, hm⟩ := Multiset.exists_cons_of_mem
        ((Multiset.mem_coe).mpr h2)
      refine ⟨m, ?_, h3⟩
      rw [← Multiset.cons_coe, hm, h1]
    · rename_i hq
      obtain ⟨m, hm, h3⟩ := ih h
      refine ⟨a ::ₘ m, ?_, h3⟩
      rw [← Multiset.cons_coe, hm, Multiset.cons_swap a p.1,
        Multiset.cons_swap a p.2]

theorem firstPair_eq_none :
    ∀ {l : List SourceSet}, firstPair l = none →
      List.Pairwise (fun a b => (a.Intersect b).isEmpty = true) l := by
  intro l
  induction l with
  | nil => intro _; exact .nil
  | cons a rest ih =>
    intro h
    unfold firstPair at h
    split at h
    · cases h
    · rename_i hq
      exact .cons (firstPairAux_eq_none hq) (ih h)

theorem coe_replace {p d : SourceSet} :
    ∀ {l : List SourceSet}, p ∈ l →
      (↑(l.replace p d) : Multiset SourceSet) =
        d ::ₘ (↑l : Multiset SourceSet).erase p := by
  intro l
  induction l with
  | nil => intro h; cases h
  | cons a l ih =>
    intro h
    by_cases hap : a = p
    · subst hap
      rw [List.replace_cons_self, ← Multiset.cons_coe, ← Multiset.cons_coe,
        Multiset.erase_cons_head]
    · have hp : p ∈ l := by
        rcases List.mem_cons.mp h with heq | hmem
        · exact absurd heq.symm hap
        · exact hmem
      have hbeq : (p == a) = false := by
        simp only [beq_eq_false_iff_ne, ne_eq]
        exact fun he => hap he.symm
      rw [List.replace_cons, hbeq]
      show (↑(a :: l.replace p d) : Multiset SourceSet) =
        d ::ₘ (↑(a :: l) : Multiset SourceSet).erase p
      rw [← Multiset.cons_coe, ← Multiset.cons_coe, ih hp,
        Multiset.erase_cons_tail _ hap, Multiset.cons_swap]

theorem coe_pyUpdate {l : List SourceSet} {p inter : SourceSet}
    (hp : p ∈ l) :
    (↑(pyUpdate l p inter) : Multiset SourceSet) =
      addIfNonempty (p.Difference inter)
        ((↑l : Multiset SourceSet).erase p) := by
  simp only [pyUpdate, addIfNonempty]
  split
  · exact (Multiset.coe_erase _ _).symm
  · exact coe_replace hp

theorem mem_addIfNonempty {S d : SourceSet} {m : Multiset SourceSet}
    (h : S ∈ addIfNonempty d m) : S = d ∨ S ∈ m := by
  unfold addIfNonempty at h
  split at h
  · exact .inr h
  · rcases Multiset.mem_cons.mp h with h | h
    · exact .inl h
    · exact .inr h

theorem mem_addIfNonempty_of_mem {S d : SourceSet} {m : Multiset SourceSet}
    (h : S ∈ m) : S ∈ addIfNonempty d m := by
  unfold addIfNonempty
  split
  · exact h
  · exact Multiset.mem_cons_of_mem h

theorem mem_addIfNonempty_self {d : SourceSet} {m : Multiset SourceSet}
    (h : ¬d.isEmpty) : d ∈ addIfNonempty d m := by
  unfold addIfNonempty
  rw [if_neg h]
  exact Multiset.mem_cons_self _ _

theorem addIfNonempty_erase {d b : SourceSet} {m : Multiset SourceSet} :
    (addIfNonempty d (b ::ₘ m)).erase b = addIfNonempty d m := by
  unfold addIfNonempty
  split
  · exact Multiset.erase_cons_head b m
  · rw [Multiset.cons_swap, Multiset.erase_cons_head]

/-- The multiset effect of one split step: the working collection
`{a, b} + m` becomes `{intersection} + m` plus the non-empty differences. -/
theorem step_eq_some {l l' : List SourceSet} (h : step l = some l') :
    ∃ (a b : SourceSet) (m : Multiset SourceSet),
      (↑l : Multiset SourceSet) = a ::ₘ b ::ₘ m ∧
      ¬(a.Intersect b).isEmpty ∧
      (↑l' : Multiset SourceSet) =
        addIfNonempty (b.Difference (a.Intersect b))
          (addIfNonempty (a.Difference (a.Intersect b))
            ((a.Intersect b) ::ₘ m)) := by
  unfold step at h
  cases hf : firstPair l with
  | none => rw [hf] at h; cases h
  | some q =>
    rw [hf] at h
    simp only [Option.some.injEq] at h
    obtain ⟨m, hm, hne⟩ := firstPair_eq_some hf
    refine ⟨q.1, q.2, m, hm, hne, ?_⟩
    subst h
    have hq1l : q.1 ∈ l ++ [q.1.Intersect q.2] := by
      refine List.mem_append.mpr (.inl ?_)
      rw [← Multiset.mem_coe, hm]
      exact Multiset.mem_cons_self _ _
    have hcoe1 : (↑(l ++ [q.1.Intersect q.2]) : Multiset SourceSet) =
        q.1 ::ₘ q.2 ::ₘ (q.1.Intersect q.2 ::ₘ m) := by
      rw [← Multiset.coe_add, hm, Multiset.coe_singleton, add_comm,
        Multiset.singleton_add, Multiset.cons_swap _ q.1,
        Multiset.cons_swap _ q.2]
    have h1 : (↑(pyUpdate (l ++ [q.1.Intersect q.2]) q.1
          (q.1.Intersect q.2)) : Multiset SourceSet) =
        addIfNonempty (q.1.Difference (q.1.Intersect q.2))
          (q.2 ::ₘ q.1.Intersect q.2 ::ₘ m) := by
      rw [coe_pyUpdate hq1l, hcoe1, Multiset.erase_cons_head]
    have hq2 : q.2 ∈ pyUpdate (l ++ [q.1.Intersect q.2]) q.1
        (q.1.Intersect q.2) := by
      rw [← Multiset.mem_coe, h1]
      exact mem_addIfNonempty_of_mem (Multiset.mem_cons_self _ _)
    rw [coe_pyUpdate hq2, h1, addIfNonempty_erase]

/-! ### The measure decreases at every step -/

theorem f2_comm (a b : SourceSet) : f2 a b = f2 b a := by
  unfold f2
  rw [Finset.inter_comm]

theorem crossOne_cons (a x : SourceSet) (m : Multiset SourceSet) :
    crossOne (x ::ₘ m) a = f2 a x + crossOne m a := by
  unfold crossOne
  rw [Multiset.map_cons, Multiset.sum_cons]

theorem dsum_cons (x : SourceSet) (m : Multiset SourceSet) :
    dsum (x ::ₘ m) = f2 x x + 2 * crossOne m x + dsum m := by
  unfold dsum
  rw [Multiset.map_cons, Multiset.sum_cons, Multiset.map_cons,
    Multiset.sum_cons]
  have hrest : (m.map (fun a => ((x ::ₘ m).map (f2 a)).sum)).sum =
      crossOne m x + dsum m := by
    have h1 : m.map (fun a => ((x ::ₘ m).map (f2 a)).sum) =
        m.map (fun a => f2 a x + (m.map (f2 a)).sum) :=
      Multiset.map_congr rfl (fun a _ => by
        rw [Multiset.map_cons, Multiset.sum_cons])
    rw [h1, Multiset.sum_map_add]
    have h2 : (m.map (fun a => f2 a x)).sum = crossOne m x :=
      congrArg _ (Multiset.map_congr rfl (fun a _ => f2_comm a x))
    rw [h2]
    rfl
  rw [hrest]
  unfold crossOne dsum
  ring

theorem dsum_le_cons (x : SourceSet) (m : Multiset SourceSet) :
    dsum m ≤ dsum (x ::ₘ m) := by
  rw [dsum_cons]
  omega

/-- Splitting the overlap of `x` with `c` along `b`. -/
theorem f2_split (x b c : SourceSet) :
    f2 x c = f2 (x.Difference (x.Intersect b)) c + f2 (x.Intersect b) c := by
  unfold f2 SourceSet.Difference SourceSet.Intersect
  dsimp only
  rw [Finset.sdiff_inter_self_left]
  have hu : x.sources ∩ c.sources =
      ((x.sources \ b.sources) ∩ c.sources) ∪
        ((x.sources ∩ b.sources) ∩ c.sources) := by
    ext y
    simp only [Finset.mem_inter, Finset.mem_union, Finset.mem_sdiff]
    tauto
  have hd : Disjoint ((x.sources \ b.sources) ∩ c.sources)
      ((x.sources ∩ b.sources) ∩ c.sources) := by
    rw [Finset.disjoint_left]
    intro y hy1 hy2
    simp only [Finset.mem_inter, Finset.mem_sdiff] at hy1 hy2
    exact hy1.1.2 hy2.1.2
  rw [hu, Finset.card_union_of_disjoint hd]

theorem crossOne_split (x b : SourceSet) (m : Multiset SourceSet) :
    crossOne m x =
      crossOne m (x.Difference (x.Intersect b)) +
        crossOne m (x.Intersect b) := by
  unfold crossOne
  rw [← Multiset.sum_map_add]
  exact congrArg _ (Multiset.map_congr rfl (fun c _ => f2_split x b c))

theorem f2_diff_diff_eq_zero (a b : SourceSet) :
    f2 (a.Difference (a.Intersect b)) (b.Difference (a.Intersect b)) = 0 := by
  unfold f2 SourceSet.Difference SourceSet.Intersect
  dsimp only
  rw [Finset.card_eq_zero, Finset.sdiff_inter_self_left,
    Finset.sdiff_inter_self_right]
  ext x
  simp only [Finset.mem_inter, Finset.mem_sdiff, Finset.not_mem_empty,
    iff_false, not_and]
  tauto

theorem f2_diff_inter_eq_zero (a b : SourceSet) :
    f2 (a.Difference (a.Intersect b)) (a.Intersect b) = 0 := by
  unfold f2 SourceSet.Difference SourceSet.Intersect
  dsimp only
  rw [Finset.card_eq_zero, Finset.sdiff_inter_self_left]
  ext x
  simp only [Finset.mem_inter, Finset.mem_sdiff, Finset.not_mem_empty,
    iff_false, not_and]
  tauto

theorem f2_diff_inter_eq_zero' (a b : SourceSet) :
    f2 (b.Difference (a.Intersect b)) (a.Intersect b) = 0 := by
  unfold f2 SourceSet.Difference SourceSet.Intersect
  dsimp only
  rw [Finset.card_eq_zero, Finset.sdiff_inter_self_right]
  ext x
  simp only [Finset.mem_inter, Finset.mem_sdiff, Finset.not_mem_empty,
    iff_false, not_and]
  tauto

theorem f2_self_inter (a b : SourceSet) :
    f2 a b = f2 (a.Intersect b) (a.Intersect b) := by
  unfold f2 SourceSet.Intersect
  dsimp only
  rw [Finset.inter_self]

theorem f2_self_split (a b : SourceSet) :
    f2 a a = f2 (a.Difference (a.Intersect b))
        (a.Difference (a.Intersect b)) +
      f2 (a.Intersect b) (a.Intersect b) := by
  unfold f2 SourceSet.Difference SourceSet.Intersect
  dsimp only
  rw [Finset.inter_self, Finset.inter_self, Finset.inter_self,
    Finset.sdiff_inter_self_left]
  exact (Finset.card_sdiff_add_card_inter _ _).symm

theorem f2_self_split' (a b : SourceSet) :
    f2 b b = f2 (b.Difference (a.Intersect b))
        (b.Difference (a.Intersect b)) +
      f2 (a.Intersect b) (a.Intersect b) := by
  unfold f2 SourceSet.Difference SourceSet.Intersect
  dsimp only
  rw [Finset.inter_self, Finset.inter_self, Finset.inter_self,
    Finset.sdiff_inter_self_right, Finset.inter_comm a.sources]
  exact (Finset.card_sdiff_add_card_inter _ _).symm

theorem one_le_f2_inter {a b : SourceSet} (h : ¬(a.Intersect b).isEmpty) :
    1 ≤ f2 (a.Intersect b) (a.Intersect b) := by
  unfold SourceSet.isEmpty at h
  unfold f2
  rw [Finset.inter_self]
  simp only [Bool.or_eq_true, decide_eq_true_eq, not_or] at h
  omega

theorem dsum_addIfNonempty_le (d : SourceSet) (m : Multiset SourceSet) :
    dsum (addIfNonempty d m) ≤ dsum (d ::ₘ m) := by
  unfold addIfNonempty
  split
  · exact dsum_le_cons d m
  · exact le_refl _

theorem dsum_cons_addIfNonempty_le (x d : SourceSet)
    (X : Multiset SourceSet) :
    dsum (x ::ₘ addIfNonempty d X) ≤ dsum (x ::ₘ d ::ₘ X) := by
  unfold addIfNonempty
  split
  · rw [Multiset.cons_swap]
    exact dsum_le_cons d (x ::ₘ X)
  · exact le_refl _

/-- The measure strictly decreases at every split of the fixpoint loop. -/
theorem step_dsum_lt {l l' : List SourceSet} (h : step l = some l') :
    dsum ↑l' < dsum ↑l := by
  obtain ⟨a, b, m, hl, hne, hl'⟩ := step_eq_some h
  rw [hl, hl']
  have key : dsum (b.Difference (a.Intersect b) ::ₘ
      a.Difference (a.Intersect b) ::ₘ a.Intersect b ::ₘ m) <
      dsum (a ::ₘ b ::ₘ m) := by
    simp only [dsum_cons, crossOne_cons]
    have e1 := crossOne_split a b m
    have e2 := crossOne_split b a m
    have e2' : crossOne m (b.Intersect a) = crossOne m (a.Intersect b) := by
      unfold SourceSet.Intersect crossOne f2
      rw [Finset.inter_comm b.sources, Finset.union_comm b.conditions]
    have e2'' : b.Difference (b.Intersect a) =
        b.Difference (a.Intersect b) := by
      unfold SourceSet.Difference SourceSet.Intersect
      rw [Finset.inter_comm b.sources, Finset.union_comm b.conditions]
    rw [e2', e2''] at e2
    have e3 := f2_self_split a b
    have e4 := f2_self_split' a b
    have e5 := f2_self_inter a b
    have e6 := f2_diff_diff_eq_zero a b
    have e6' : f2 (b.Difference (a.Intersect b))
        (a.Difference (a.Intersect b)) = 0 := by
      rw [f2_comm]; exact e6
    have e7 := f2_diff_inter_eq_zero a b
    have e7' : f2 (a.Difference (a.Intersect b)) (a.Intersect b) = 0 := e7
    have e8 := f2_diff_inter_eq_zero' a b
    have e9 := one_le_f2_inter hne
    have e10 : f2 a b = f2 (a.Intersect b) (a.Intersect b) := e5
    omega
  calc dsum (addIfNonempty (b.Difference (a.Intersect b))
        (addIfNonempty (a.Difference (a.Intersect b))
          (a.Intersect b ::ₘ m)))
      ≤ dsum (b.Difference (a.Intersect b) ::ₘ
          addIfNonempty (a.Difference (a.Intersect b))
            (a.Intersect b ::ₘ m)) := dsum_addIfNonempty_le _ _
    _ ≤ dsum (b.Difference (a.Intersect b) ::ₘ
          a.Difference (a.Intersect b) ::ₘ a.Intersect b ::ₘ m) :=
        dsum_cons_addIfNonempty_le _ _ _
    _ < dsum (a ::ₘ b ::ₘ m) := key

theorem step_eq_none {l : List SourceSet} (h : step l = none) :
    firstPair l = none := by
  unfold step at h
  cases hf : firstPair l with
  | none => rfl
  | some p =>
    obtain ⟨a, b⟩ := p
    rw [hf] at h
    simp at h

theorem go_fixpoint :
    ∀ (n : ℕ) (l : List SourceSet), dsum ↑l < n →
      firstPair (go n l) = none := by
  intro n
  induction n with
  | zero => intro l h; omega
  | succ n ih =>
    intro l h
    unfold go
    cases hs : step l with
    | none => exact step_eq_none hs
    | some l' =>
      refine ih l' ?_
      have := step_dsum_lt hs
      omega

theorem go_preserves {P : List SourceSet → Prop}
    (hstep : ∀ l l', step l = some l' → P l → P l') :
    ∀ (n : ℕ) (l : List SourceSet), P l → P (go n l) := by
  intro n
  induction n with
  | zero => intro l h; exact h
  | succ n ih =>
    intro l h
    unfold go
    cases hs : step l with
    | none => exact h
    | some l' => exact ih l' (hstep l l' hs h)

theorem mem_inputConditionsOn {inputs : List SourceSet} {f : String}
    {c : SLC} :
    c ∈ inputConditionsOn inputs f ↔
      ∃ s ∈ inputs, f ∈ s.sources ∧ c ∈ s.conditions := by
  induction inputs with
  | nil => simp [inputConditionsOn]
  | cons s ss ih =>
    show c ∈ (if f ∈ s.sources then s.conditions ∪ inputConditionsOn ss f
      else inputConditionsOn ss f) ↔ _
    by_cases hf : f ∈ s.sources
    · rw [if_pos hf]
      simp only [Finset.mem_union, ih]
      constructor
      · rintro (hc | ⟨t, ht, hft, hct⟩)
        · exact ⟨s, .head _, hf, hc⟩
        · exact ⟨t, .tail _ ht, hft, hct⟩
      · rintro ⟨t, ht, hft, hct⟩
        rcases List.mem_cons.mp ht with rfl | ht
        · exact .inl hct
        · exact .inr ⟨t, ht, hft, hct⟩
    · rw [if_neg hf, ih]
      constructor
      · rintro ⟨t, ht, hft, hct⟩
        exact ⟨t, .tail _ ht, hft, hct⟩
      · rintro ⟨t, ht, hft, hct⟩
        rcases List.mem_cons.mp ht with rfl | ht
        · exact absurd hft hf
        · exact ⟨t, ht, hft, hct⟩

theorem diff_inter_conditions (a b : SourceSet) :
    (a.Difference (a.Intersect b)).conditions = a.conditions := by
  unfold SourceSet.Difference SourceSet.Intersect
  dsimp only
  ext c
  simp only [Finset.mem_inter, Finset.mem_union]
  tauto

theorem diff_inter_conditions' (a b : SourceSet) :
    (b.Difference (a.Intersect b)).conditions = b.conditions := by
  unfold SourceSet.Difference SourceSet.Intersect
  dsimp only
  ext c
  simp only [Finset.mem_inter, Finset.mem_union]
  tauto

theorem diff_inter_sources (a b : SourceSet) :
    (a.Difference (a.Intersect b)).sources = a.sources \ b.sources := by
  unfold SourceSet.Difference SourceSet.Intersect
  dsimp only
  exact Finset.sdiff_inter_self_left _ _

theorem diff_inter_sources' (a b : SourceSet) :
    (b.Difference (a.Intersect b)).sources = b.sources \ a.sources := by
  unfold SourceSet.Difference SourceSet.Intersect
  dsimp only
  exact Finset.sdiff_inter_self_right _ _

theorem isEmpty_iff {s : SourceSet} :
    s.isEmpty = true ↔ s.sources = ∅ ∨ s.conditions = ∅ := by
  unfold SourceSet.isEmpty
  simp [Finset.card_eq_zero]

theorem step_condNonempty {l l' : List SourceSet} (h : step l = some l')
    (hc : condNonempty l) : condNonempty l' := by
  obtain ⟨a, b, m, hl, _, hl'⟩ := step_eq_some h
  have ha : a.conditions ≠ ∅ := hc a (by
    rw [← Multiset.mem_coe, hl]; exact Multiset.mem_cons_self _ _)
  have hb : b.conditions ≠ ∅ := hc b (by
    rw [← Multiset.mem_coe, hl]
    exact Multiset.mem_cons_of_mem (Multiset.mem_cons_self _ _))
  intro S hS
  rw [← Multiset.mem_coe, hl'] at hS
  rcases mem_addIfNonempty hS with rfl | hS
  · rw [diff_inter_conditions' a b]
    exact hb
  rcases mem_addIfNonempty hS with rfl | hS
  · rw [diff_inter_conditions a b]
    exact ha
  rcases Multiset.mem_cons.mp hS with rfl | hS
  · show (a.Intersect b).conditions ≠ ∅
    intro hun
    rw [show (a.Intersect b).conditions = a.conditions ∪ b.conditions
      from rfl, Finset.union_eq_empty] at hun
    exact ha hun.1
  · exact hc S (by
      rw [← Multiset.mem_coe, hl]
      exact Multiset.mem_cons_of_mem (Multiset.mem_cons_of_mem hS))

theorem step_condsBounded {inputs l l' : List SourceSet}
    (h : step l = some l') (hb : condsBounded inputs l) :
    condsBounded inputs l' := by
  obtain ⟨a, b, m, hl, _, hl'⟩ := step_eq_some h
  have hal : a ∈ l := by
    rw [← Multiset.mem_coe, hl]; exact Multiset.mem_cons_self _ _
  have hbl : b ∈ l := by
    rw [← Multiset.mem_coe, hl]
    exact Multiset.mem_cons_of_mem (Multiset.mem_cons_self _ _)
  intro S hS f hf
  rw [← Multiset.mem_coe, hl'] at hS
  rcases mem_addIfNonempty hS with rfl | hS
  · rw [diff_inter_sources' a b] at hf
    rw [diff_inter_conditions' a b]
    exact hb b hbl f (Finset.mem_sdiff.mp hf).1
  rcases mem_addIfNonempty hS with rfl | hS
  · rw [diff_inter_sources a b] at hf
    rw [diff_inter_conditions a b]
    exact hb a hal f (Finset.mem_sdiff.mp hf).1
  rcases Multiset.mem_cons.mp hS with rfl | hS
  · have hf' : f ∈ a.sources ∩ b.sources := hf
    rw [show (a.Intersect b).conditions = a.conditions ∪ b.conditions
      from rfl]
    exact Finset.union_subset
      (hb a hal f (Finset.mem_inter.mp hf').1)
      (hb b hbl f (Finset.mem_inter.mp hf').2)
  · exact hb S (by
      rw [← Multiset.mem_coe, hl]
      exact Multiset.mem_cons_of_mem (Multiset.mem_cons_of_mem hS)) f hf

theorem step_condsCovered {inputs l l' : List SourceSet}
    (h : step l = some l') (hcov : condsCovered inputs l) :
    condsCovered inputs l' := by
  obtain ⟨a, b, m, hl, _, hl'⟩ := step_eq_some h
  intro f c hc
  obtain ⟨S, hS, hfS, hcS⟩ := hcov f c hc
  rw [← Multiset.mem_coe, hl] at hS
  have hmem_of_m : ∀ T, T ∈ m → T ∈ l' := by
    intro T hT
    rw [← Multiset.mem_coe, hl']
    exact mem_addIfNonempty_of_mem (mem_addIfNonempty_of_mem
      (Multiset.mem_cons_of_mem hT))
  have hInter_mem : a.Intersect b ∈ l' := by
    rw [← Multiset.mem_coe, hl']
    exact mem_addIfNonempty_of_mem (mem_addIfNonempty_of_mem
      (Multiset.mem_cons_self _ _))
  rcases Multiset.mem_cons.mp hS with rfl | hS
  · by_cases hfb : f ∈ b.sources
    · exact ⟨S.Intersect b, hInter_mem,
        Finset.mem_inter.mpr ⟨hfS, hfb⟩,
        Finset.mem_union_left _ hcS⟩
    · refine ⟨S.Difference (S.Intersect b), ?_, ?_, ?_⟩
      · rw [← Multiset.mem_coe, hl']
        refine mem_addIfNonempty_of_mem (mem_addIfNonempty_self ?_)
        rw [Bool.not_eq_true, ← Bool.not_eq_true]
        intro hemp
        rcases isEmpty_iff.mp hemp with he | he
        · rw [diff_inter_sources] at he
          have : f ∈ S.sources \ b.sources :=
            Finset.mem_sdiff.mpr ⟨hfS, hfb⟩
          rw [he] at this
          exact Finset.not_mem_empty f this
        · rw [diff_inter_conditions] at he
          rw [he] at hcS
          exact Finset.not_mem_empty c hcS
      · rw [diff_inter_sources]
        exact Finset.mem_sdiff.mpr ⟨hfS, hfb⟩
      · rw [diff_inter_conditions]
        exact hcS
  rcases Multiset.mem_cons.mp hS with rfl | hS
  · by_cases hfa : f ∈ a.sources
    · exact ⟨a.Intersect S, hInter_mem,
        Finset.mem_inter.mpr ⟨hfa, hfS⟩,
        Finset.mem_union_right _ hcS⟩
    · refine ⟨S.Difference (a.Intersect S), ?_, ?_, ?_⟩
      · rw [← Multiset.mem_coe, hl']
        refine mem_addIfNonempty_self ?_
        rw [Bool.not_eq_true, ← Bool.not_eq_true]
        intro hemp
        rcases isEmpty_iff.mp hemp with he | he
        · rw [diff_inter_sources'] at he
          have : f ∈ S.sources \ a.sources :=
            Finset.mem_sdiff.mpr ⟨hfS, hfa⟩
          rw [he] at this
          exact Finset.not_mem_empty f this
        · rw [diff_inter_conditions'] at he
          rw [he] at hcS
          exact Finset.not_mem_empty c hcS
      · rw [diff_inter_sources']
        exact Finset.mem_sdiff.mpr ⟨hfS, hfa⟩
      · rw [diff_inter_conditions']
        exact hcS
  · exact ⟨S, hmem_of_m S hS, hfS, hcS⟩

theorem filesUnion_cons (x : SourceSet) (m : Multiset SourceSet) :
    filesUnion (x ::ₘ m) = x.sources ∪ filesUnion m := by
  unfold filesUnion
  rw [Multiset.map_cons, Multiset.sup_cons]
  rfl

theorem filesUnion_addIfNonempty {d : SourceSet} {m : Multiset SourceSet}
    (hd : d.conditions ≠ ∅) :
    filesUnion (addIfNonempty d m) = d.sources ∪ filesUnion m := by
  unfold addIfNonempty
  split
  · rename_i hemp
    rcases isEmpty_iff.mp hemp with he | he
    · rw [he, Finset.empty_union]
    · exact absurd he hd
  · exact filesUnion_cons d m

theorem step_filesUnion {l l' : List SourceSet} (h : step l = some l')
    (hc : condNonempty l) : filesUnion ↑l' = filesUnion ↑l := by
  obtain ⟨a, b, m, hl, _, hl'⟩ := step_eq_some h
  have ha : a.conditions ≠ ∅ := hc a (by
    rw [← Multiset.mem_coe, hl]; exact Multiset.mem_cons_self _ _)
  have hb : b.conditions ≠ ∅ := hc b (by
    rw [← Multiset.mem_coe, hl]
    exact Multiset.mem_cons_of_mem (Multiset.mem_cons_self _ _))
  have hdb : (b.Difference (a.Intersect b)).conditions ≠ ∅ := by
    rw [diff_inter_conditions' a b]; exact hb
  have hda : (a.Difference (a.Intersect b)).conditions ≠ ∅ := by
    rw [diff_inter_conditions a b]; exact ha
  rw [hl, hl', filesUnion_addIfNonempty hdb, filesUnion_addIfNonempty hda,
    filesUnion_cons, filesUnion_cons, filesUnion_cons,
    diff_inter_sources' a b, diff_inter_sources a b,
    show (a.Intersect b).sources = a.sources ∩ b.sources from rfl]
  ext x
  simp only [Finset.mem_union, Finset.mem_sdiff, Finset.mem_inter]
  tauto

theorem cpds_fixpoint (inputs : List SourceSet) :
    firstPair (CreatePairwiseDisjointSets inputs) = none :=
  go_fixpoint _ _ (Nat.lt_succ_self _)

theorem cpds_pairwise {inputs : List SourceSet} (h : condNonempty inputs) :
    (CreatePairwiseDisjointSets inputs).Pairwise
      (fun A B => A.sources ∩ B.sources = ∅) := by
  have hcn : condNonempty (CreatePairwiseDisjointSets inputs) :=
    go_preserves (fun _ _ hs hP => step_condNonempty hs hP) _ _ h
  have hpw := firstPair_eq_none (cpds_fixpoint inputs)
  refine List.Pairwise.imp_of_mem ?_ hpw
  intro A B hA _ hAB
  rcases isEmpty_iff.mp hAB with hs | hc
  · exact hs
  · exfalso
    rw [show (A.Intersect B).conditions = A.conditions ∪ B.conditions
      from rfl, Finset.union_eq_empty] at hc
    exact hcn A hA hc.1

theorem pairwise_unique {R : List SourceSet}
    (hpw : R.Pairwise (fun A B => A.sources ∩ B.sources = ∅))
    {S T : SourceSet} (hS : S ∈ R) (hT : T ∈ R) {f : String}
    (hfS : f ∈ S.sources) (hfT : f ∈ T.sources) : T = S := by
  by_contra hne
  have hsym : Symmetric (fun A B : SourceSet =>
      A.sources ∩ B.sources = ∅) := by
    intro A B hab
    rw [Finset.inter_comm]
    exact hab
  have hall := List.Pairwise.forall hsym hpw
  have hemp : T.sources ∩ S.sources = ∅ := hall hT hS hne
  have : f ∈ T.sources ∩ S.sources := Finset.mem_inter.mpr ⟨hfT, hfS⟩
  rw [hemp] at this
  exact Finset.not_mem_empty f this

/-! ### C1: correctness of the disjoint decomposition -/

/-- C1. For inputs each tagged with exactly one concrete condition,
`CreatePairwiseDisjointSets` returns a collection whose members have
pairwise disjoint file sets; every input file belongs to exactly one output
SourceSet, and the condition collection of the output SourceSet containing a
file `f` is exactly the set of input conditions whose SourceSet contained
`f`. -/
theorem C1_decomposition (inputs : List SourceSet)
    (h : ∀ s ∈ inputs, ∃ c : SLC, s.conditions = {c}) :
    (CreatePairwiseDisjointSets inputs).Pairwise
      (fun A B => A.sources ∩ B.sources = ∅) ∧
    ∀ f : String, (∃ s ∈ inputs, f ∈ s.sources) →
      ∃ S, S ∈ CreatePairwiseDisjointSets inputs ∧ f ∈ S.sources ∧
        (∀ T, T ∈ CreatePairwiseDisjointSets inputs → f ∈ T.sources →
          T = S) ∧
        S.conditions = inputConditionsOn inputs f := by
  have hcn0 : condNonempty inputs := by
    intro s hs
    obtain ⟨c, hc⟩ := h s hs
    rw [hc]
    simp
  have hpw := cpds_pairwise hcn0
  have hcov : condsCovered inputs (CreatePairwiseDisjointSets inputs) :=
    go_preserves (fun _ _ hs hP => step_condsCovered hs hP) _ _
      (fun f c hc => mem_inputConditionsOn.mp hc)
  have hbdd : condsBounded inputs (CreatePairwiseDisjointSets inputs) :=
    go_preserves (fun _ _ hs hP => step_condsBounded hs hP) _ _
      (fun S hS f hf c' hc' =>
        mem_inputConditionsOn.mpr ⟨S, hS, hf, hc'⟩)
  refine ⟨hpw, ?_⟩
  rintro f ⟨s, hs, hfs⟩
  obtain ⟨c, hc⟩ := h s hs
  have hcK : c ∈ inputConditionsOn inputs f :=
    mem_inputConditionsOn.mpr ⟨s, hs, hfs, by
      rw [hc]; exact Finset.mem_singleton_self c⟩
  obtain ⟨S, hS, hfSm, hcS⟩ := hcov f c hcK
  refine ⟨S, hS, hfSm,
    fun T hT hfT => pairwise_unique hpw hS hT hfSm hfT, ?_⟩
  apply Finset.Subset.antisymm
  · exact hbdd S hS f hfSm
  · intro c' hc'
    obtain ⟨S', hS', hfS', hcS'⟩ := hcov f c' hc'
    have heq : S' = S := pairwise_unique hpw hS hS' hfSm hfS'
    exact heq ▸ hcS'

/-- C1 (witness): Example 1 of the spec.  The shared file `y.c` ends in a
unique output SourceSet whose conditions are exactly the two input
conditions. -/
theorem C1_witness :
    ∃ S, S ∈ CreatePairwiseDisjointSets [exInputA, exInputB] ∧
      "y.c" ∈ S.sources ∧
      (∀ T, T ∈ CreatePairwiseDisjointSets [exInputA, exInputB] →
        "y.c" ∈ T.sources → T = S) ∧
      S.conditions = inputConditionsOn [exInputA, exInputB] "y.c" :=
  (C1_decomposition [exInputA, exInputB] (by decide)).2 "y.c"
    ⟨exInputA, by decide, by decide⟩

/-! ### C5: coverage preservation -/

/-- C5 (counterexample). With an input outside the engine's contract — an
empty condition collection — a file can be lost: the difference set keeping
`g.c` gets an empty condition intersection, is classified empty, and is
deleted, so the output file union is strictly smaller than the input one. -/
theorem C5_counterexample :
    filesUnion ↑(CreatePairwiseDisjointSets badInputs) ≠
      filesUnion ↑badInputs := by decide

/-- C5 (amended). When every input SourceSet carries a non-empty condition
collection (as the decomposition engine's contract guarantees — one concrete
condition each), the union of the output file sets equals the union of the
input file sets, and the union is preserved by every single split step of
the fixpoint loop. -/
theorem C5_coverage_preservation (inputs : List SourceSet)
    (h : ∀ s ∈ inputs, s.conditions ≠ ∅) :
    filesUnion ↑(CreatePairwiseDisjointSets inputs) =
        filesUnion ↑inputs ∧
    ∀ (l l' : List SourceSet), (∀ s ∈ l, s.conditions ≠ ∅) →
      step l = some l' → filesUnion ↑l' = filesUnion ↑l := by
  constructor
  · have hgo := go_preserves (P := fun l =>
        condNonempty l ∧ filesUnion ↑l = filesUnion ↑inputs)
      (fun _ _ hs hP => ⟨step_condNonempty hs hP.1, by
        rw [step_filesUnion hs hP.1, hP.2]⟩)
      (dsum ↑inputs + 1) inputs ⟨h, rfl⟩
    exact hgo.2
  · exact fun l l' hcn hs => step_filesUnion hs hcn

/-- C5 (witness): on Example 1 the output file union equals the input file
union. -/
theorem C5_witness :
    filesUnion ↑(CreatePairwiseDisjointSets [exInputA, exInputB]) =
      filesUnion ↑[exInputA, exInputB] :=
  (C5_coverage_preservation [exInputA, exInputB] (by decide)).1

end GenerateGn
